import Mathlib

/-!
Shallow embedding of the 2-D topology-to-gmsh-entity compiler of
`src/bubbles/gmsh_utils.py` (functions `bubble_to_gmsh_entities` and
`topology_to_gmsh_entities`).

Coordinates are embedded as rationals: the compiler never computes with
coordinates, it only copies them into `Point` records, so `ℚ` is a faithful
carrier for the float values of the source (all literals appearing in the
spec's scenarios are exactly representable).

Python exceptions (indexing `points_local[-1]` or `entity_tags[0]` on an
empty list) are embedded as `Option`: `none` models a raised exception.
The topology collaborator (`topo.flatten()` and `topo.holes`, defined
outside `src/bubbles`) is abstracted by its iteration contract: the ordered
list of (polygon, level) pairs and the list of hole levels.
-/

namespace Bubbles

/-- Two dimensional point (`Point` NamedTuple in the source). -/
structure Point where
  x : ℚ
  y : ℚ
  z : ℚ
  lc : ℚ
  tag : ℕ
deriving DecidableEq, Repr

/-- Line between two points (`Line` NamedTuple in the source). -/
structure Line where
  start_tag : ℕ
  end_tag : ℕ
  tag : ℕ
deriving DecidableEq, Repr

/-- Closed loop of lines (`CurveLoop` NamedTuple in the source). -/
structure CurveLoop where
  line_tags : List ℕ
  tag : ℕ
deriving DecidableEq, Repr

/-- Surface delimited by curve loops (`PlaneSurface` NamedTuple in the source). -/
structure PlaneSurface where
  curve_loop_tags : List ℕ
  tag : ℕ
deriving DecidableEq, Repr

/-- Group of entities belonging to the same physical group
(`PhysicalGroup` NamedTuple in the source). -/
structure PhysicalGroup where
  dim : ℕ
  entity_tags : List ℕ
  tag : ℕ
deriving DecidableEq, Repr

/-- The entity collections of the `GmshEntities` TypedDict that the 2-D
compilation path populates (`surface_loops` and `volumes` are never
produced by it). -/
structure GmshEntities where
  points : List Point
  lines : List Line
  curve_loops : List CurveLoop
  plane_surfaces : List PlaneSurface
  physical_groups : List PhysicalGroup
deriving DecidableEq, Repr

/-- A shapely polygon as the compiler reads it: `exterior` models
`polygon.exterior.coords` (closing duplicate included) and `interiors`
models `[loop.coords for loop in polygon.interiors]`. -/
structure Polygon where
  exterior : List (ℚ × ℚ)
  interiors : List (List (ℚ × ℚ))
deriving DecidableEq, Repr

/-- The characteristic-length literal `0.1` of the source, written as the
normal-form rational `1/10` (numerator 1, denominator 10) so that kernel
evaluation of concrete runs is possible. -/
def lcConst : ℚ := ⟨1, 10, by decide, by decide⟩


/-- The point loop of the source (`for x, y in coords[:-1]: ... point_tag += 1`),
applied after the caller has dropped the closing coordinate: one `Point`
per coordinate with `z = 0.0`, `lc = 0.1`, consecutive tags from `point_tag`;
also returns the advanced counter. -/
def addPoints : List (ℚ × ℚ) → ℕ → List Point × ℕ
  | [], point_tag => ([], point_tag)
  | (x, y) :: rest, point_tag =>
      (⟨x, y, 0, lcConst, point_tag⟩ :: (addPoints rest (point_tag + 1)).1,
       (addPoints rest (point_tag + 1)).2)

/-- The consecutive-line loop of the source
(`for i in range(len(points_local) - 1): Line(...)`): one `Line` from each
point to its successor, consecutive tags from `line_tag`. -/
def consecLines : List Point → ℕ → List Line × ℕ
  | [], line_tag => ([], line_tag)
  | [_], line_tag => ([], line_tag)
  | p :: q :: rest, line_tag =>
      (⟨p.tag, q.tag, line_tag⟩ :: (consecLines (q :: rest) (line_tag + 1)).1,
       (consecLines (q :: rest) (line_tag + 1)).2)

/-- The full line block of the source: consecutive lines, then the closing
`Line(points_local[-1].tag, points_local[0].tag, line_tag)`. `none` models
the `IndexError` Python raises on `points_local[-1]` when no point was
generated. -/
def addLines (pts : List Point) (line_tag : ℕ) : Option (List Line × ℕ) :=
  match pts with
  | [] => none
  | p :: rest =>
      some ((consecLines (p :: rest) line_tag).1 ++
              [⟨((p :: rest).getLast (by simp)).tag, p.tag,
                (consecLines (p :: rest) line_tag).2⟩],
            (consecLines (p :: rest) line_tag).2 + 1)

/-- One ring compilation as the source performs it (identically for the
exterior ring and for each interior ring): drop the closing coordinate,
generate points, lines, and one curve loop holding the line tags in order;
returns the advanced point/line/curve-loop counters. -/
def compileRing (coords : List (ℚ × ℚ)) (point_tag line_tag curve_loop_tag : ℕ) :
    Option (List Point × List Line × CurveLoop × ℕ × ℕ × ℕ) :=
  match addLines (addPoints coords.dropLast point_tag).1 line_tag with
  | none => none
  | some (lines_local, line_tag') =>
      some ((addPoints coords.dropLast point_tag).1, lines_local,
            ⟨lines_local.map Line.tag, curve_loop_tag⟩,
            (addPoints coords.dropLast point_tag).2, line_tag',
            curve_loop_tag + 1)

/-- The `for loop in polygon.interiors` loop of the source: compile each
interior ring in order, accumulating points, lines and curve loops and
threading the counters. -/
def compileInteriors : List (List (ℚ × ℚ)) → ℕ → ℕ → ℕ →
    Option (List Point × List Line × List CurveLoop × ℕ × ℕ × ℕ)
  | [], point_tag, line_tag, curve_loop_tag =>
      some ([], [], [], point_tag, line_tag, curve_loop_tag)
  | ring :: rest, point_tag, line_tag, curve_loop_tag =>
      match compileRing ring point_tag line_tag curve_loop_tag with
      | none => none
      | some (ps, ls, loop, pt', lt', clt') =>
          match compileInteriors rest pt' lt' clt' with
          | none => none
          | some (ps2, ls2, loops2, pt2, lt2, clt2) =>
              some (ps ++ ps2, ls ++ ls2, loop :: loops2, pt2, lt2, clt2)

/-- `bubble_to_gmsh_entities(polygon, level, point_tag, line_tag,
curve_loop_tag, plane_surface_tag)` of the source: compile the exterior
ring, then every interior ring, emit one `PlaneSurface` over all curve
loops and one `PhysicalGroup` with tag `level + 1`, and return the entity
set together with the four advanced counters. -/
def bubble_to_gmsh_entities (polygon : Polygon) (level : ℕ)
    (point_tag line_tag curve_loop_tag plane_surface_tag : ℕ) :
    Option (GmshEntities × ℕ × ℕ × ℕ × ℕ) :=
  match compileRing polygon.exterior point_tag line_tag curve_loop_tag with
  | none => none
  | some (ext_points, ext_lines, ext_loop, pt1, lt1, clt1) =>
      match compileInteriors polygon.interiors pt1 lt1 clt1 with
      | none => none
      | some (int_points, int_lines, int_loops, pt2, lt2, clt2) =>
          some (⟨ext_points ++ int_points, ext_lines ++ int_lines,
                 ext_loop :: int_loops,
                 [⟨(ext_loop :: int_loops).map CurveLoop.tag, plane_surface_tag⟩],
                 [⟨2, [plane_surface_tag], level + 1⟩]⟩,
                pt2, lt2, clt2, plane_surface_tag + 1)

/-- The region loop of `topology_to_gmsh_entities`: walk the flattened
(polygon, level) pairs in order, skip pairs whose level is a hole level,
compile the rest threading the four counters, and collect the per-region
entity sets in order. -/
def compileBubbles : List (Polygon × ℕ) → List ℕ → ℕ → ℕ → ℕ → ℕ →
    Option (List GmshEntities)
  | [], _, _, _, _, _ => some []
  | (polygon, level) :: rest, holes, pt, lt, clt, pst =>
      if level ∈ holes then
        compileBubbles rest holes pt lt clt pst
      else
        match bubble_to_gmsh_entities polygon level pt lt clt pst with
        | none => none
        | some (ent, pt', lt', clt', pst') =>
            match compileBubbles rest holes pt' lt' clt' pst' with
            | none => none
            | some ents => some (ent :: ents)

/-- `[e["physical_groups"][0] for e in all_entities_list]` of the source:
the first physical group of every per-region entity set; `none` models the
`IndexError` when a set has none. -/
def firstGroups : List GmshEntities → Option (List PhysicalGroup)
  | [] => some []
  | e :: rest =>
      match e.physical_groups.head? with
      | none => none
      | some g =>
          match firstGroups rest with
          | none => none
          | some gs => some (g :: gs)

/-- `physical_groups.sort(key=lambda x: x.tag)` of the source: Python's
stable sort by tag, embedded as stable insertion sort. -/
def sortGroupsByTag (gs : List PhysicalGroup) : List PhysicalGroup :=
  List.insertionSort (fun a b => a.tag ≤ b.tag) gs

/-- `itertools.groupby(physical_groups, lambda x: x.tag)` of the source:
maximal runs of consecutive records sharing a tag, keyed by that tag. -/
def groupByTag : List PhysicalGroup → List (ℕ × List PhysicalGroup)
  | [] => []
  | g :: rest =>
      match groupByTag rest with
      | [] => [(g.tag, [g])]
      | (t, gs) :: more =>
          if g.tag = t then (t, g :: gs) :: more
          else (g.tag, [g]) :: (t, gs) :: more

/-- The merge loop of the source: sort the collected physical groups by
tag, group consecutive equal tags, and emit for each tag one merged
`PhysicalGroup` of dimension 2 whose entity tags are
`[s.entity_tags[0] for s in group]` (`none` models the `IndexError` on an
entity-tag-less record). -/
def mergeGroups (gs : List PhysicalGroup) : Option (List PhysicalGroup) :=
  (groupByTag (sortGroupsByTag gs)).mapM fun tg =>
    match tg.2.mapM fun g => g.entity_tags.head? with
    | none => none
    | some entity_tags => some (⟨2, entity_tags, tg.1⟩ : PhysicalGroup)

/-- `topology_to_gmsh_entities(topo)` of the source, with the topology
collaborator abstracted by its contract: `topo_flatten` is the list
produced by `topo.flatten()` and `topo_holes` the hole-level set
`topo.holes`. Compiles every non-hole region with counters starting at 1,
concatenates the per-region collections in order, and merges the physical
groups by tag. -/
def topology_to_gmsh_entities (topo_flatten : List (Polygon × ℕ))
    (topo_holes : List ℕ) : Option GmshEntities :=
  match compileBubbles topo_flatten topo_holes 1 1 1 1 with
  | none => none
  | some all_entities_list =>
      match firstGroups all_entities_list with
      | none => none
      | some physical_groups =>
          match mergeGroups physical_groups with
          | none => none
          | some physical_groups_merged =>
              some { points := (all_entities_list.map GmshEntities.points).flatten,
                     lines := (all_entities_list.map GmshEntities.lines).flatten,
                     curve_loops :=
                       (all_entities_list.map GmshEntities.curve_loops).flatten,
                     plane_surfaces :=
                       (all_entities_list.map GmshEntities.plane_surfaces).flatten,
                     physical_groups := physical_groups_merged }

/-- One (group tag, entity tag) pair per entity-tag entry of each record:
the "flat membership relation" carried by a list of physical groups. -/
def explodeGroups (l : List PhysicalGroup) : List (ℕ × ℕ) :=
  (l.map fun g => g.entity_tags.map fun e => (g.tag, e)).flatten

instance : IsTotal PhysicalGroup (fun a b => a.tag ≤ b.tag) :=
  ⟨fun a b => Nat.le_total a.tag b.tag⟩

instance : IsTrans PhysicalGroup (fun a b => a.tag ≤ b.tag) :=
  ⟨fun _ _ _ => Nat.le_trans⟩

/-- `0.25` as a normal-form rational. -/
def q14 : ℚ := ⟨1, 4, by decide, by decide⟩

/-- `0.75` as a normal-form rational. -/
def q34 : ℚ := ⟨3, 4, by decide, by decide⟩


/-- The closed unit-square ring `[(0,0),(1,0),(1,1),(0,1),(0,0)]` of the
spec scenarios. -/
def squareRing : List (ℚ × ℚ) := [(0, 0), (1, 0), (1, 1), (0, 1), (0, 0)]

/-- The unit square as a polygon without interior rings. -/
def square : Polygon := ⟨squareRing, []⟩

/-- The interior ring
`[(0.25,0.25),(0.75,0.25),(0.75,0.75),(0.25,0.75),(0.25,0.25)]`. -/
def innerRing : List (ℚ × ℚ) :=
  [(q14, q14), (q34, q14), (q34, q34), (q14, q34), (q14, q14)]

/-- The unit square with the centered square hole. -/
def squareWithHole : Polygon := ⟨squareRing, [innerRing]⟩

/-- A disjoint copy of the unit square, shifted to `x ∈ [2,3]`. -/
def square2 : Polygon := ⟨[(2, 0), (3, 0), (3, 1), (2, 1), (2, 0)], []⟩

/-- A closed ring with only 2 distinct coordinates: `[(0,0),(1,1),(0,0)]`. -/
def degenerateRing : List (ℚ × ℚ) := [(0, 0), (1, 1), (0, 0)]

/-- The degenerate two-coordinate ring as a polygon. -/
def degeneratePolygon : Polygon := ⟨degenerateRing, []⟩

/-- The compiled entity set of the single unit square at level 0. -/
def squareEntities : GmshEntities :=
  ⟨[⟨0, 0, 0, lcConst, 1⟩, ⟨1, 0, 0, lcConst, 2⟩,
    ⟨1, 1, 0, lcConst, 3⟩, ⟨0, 1, 0, lcConst, 4⟩],
   [⟨1, 2, 1⟩, ⟨2, 3, 2⟩, ⟨3, 4, 3⟩, ⟨4, 1, 4⟩],
   [⟨[1, 2, 3, 4], 1⟩], [⟨[1], 1⟩], [⟨2, [1], 1⟩]⟩

/-- The compiled entity set of the square-with-hole region at level 0. -/
def squareWithHoleEntities : GmshEntities :=
  ⟨[⟨0, 0, 0, lcConst, 1⟩, ⟨1, 0, 0, lcConst, 2⟩,
    ⟨1, 1, 0, lcConst, 3⟩, ⟨0, 1, 0, lcConst, 4⟩,
    ⟨q14, q14, 0, lcConst, 5⟩, ⟨q34, q14, 0, lcConst, 6⟩,
    ⟨q34, q34, 0, lcConst, 7⟩, ⟨q14, q34, 0, lcConst, 8⟩],
   [⟨1, 2, 1⟩, ⟨2, 3, 2⟩, ⟨3, 4, 3⟩, ⟨4, 1, 4⟩,
    ⟨5, 6, 5⟩, ⟨6, 7, 6⟩, ⟨7, 8, 7⟩, ⟨8, 5, 8⟩],
   [⟨[1, 2, 3, 4], 1⟩, ⟨[5, 6, 7, 8], 2⟩],
   [⟨[1, 2], 1⟩], [⟨2, [1], 1⟩]⟩

/-- The compiled entity set of the two disjoint squares, both at level 1. -/
def twoSquaresEntities : GmshEntities :=
  ⟨[⟨0, 0, 0, lcConst, 1⟩, ⟨1, 0, 0, lcConst, 2⟩,
    ⟨1, 1, 0, lcConst, 3⟩, ⟨0, 1, 0, lcConst, 4⟩,
    ⟨2, 0, 0, lcConst, 5⟩, ⟨3, 0, 0, lcConst, 6⟩,
    ⟨3, 1, 0, lcConst, 7⟩, ⟨2, 1, 0, lcConst, 8⟩],
   [⟨1, 2, 1⟩, ⟨2, 3, 2⟩, ⟨3, 4, 3⟩, ⟨4, 1, 4⟩,
    ⟨5, 6, 5⟩, ⟨6, 7, 6⟩, ⟨7, 8, 7⟩, ⟨8, 5, 8⟩],
   [⟨[1, 2, 3, 4], 1⟩, ⟨[5, 6, 7, 8], 2⟩],
   [⟨[1], 1⟩, ⟨[2], 2⟩], [⟨2, [1, 2], 2⟩]⟩

end Bubbles

namespace Bubbles

/-! ### Lemmas about the point and line loops -/

theorem lcConst_eq : lcConst = 1/10 := by
  rw [lcConst, Rat.mk'_eq_divInt, Rat.divInt_eq_div]
  norm_num

theorem q14_eq : q14 = 0.25 := by
  rw [q14, Rat.mk'_eq_divInt, Rat.divInt_eq_div]
  norm_num

theorem q34_eq : q34 = 0.75 := by
  rw [q34, Rat.mk'_eq_divInt, Rat.divInt_eq_div]
  norm_num

theorem addPoints_length (coords : List (ℚ × ℚ)) (t : ℕ) :
    (addPoints coords t).1.length = coords.length := by
  induction coords generalizing t with
  | nil => simp [addPoints]
  | cons c rest ih =>
      obtain ⟨x, y⟩ := c
      simp [addPoints, ih]

theorem addPoints_snd (coords : List (ℚ × ℚ)) (t : ℕ) :
    (addPoints coords t).2 = t + coords.length := by
  induction coords generalizing t with
  | nil => simp [addPoints]
  | cons c rest ih =>
      obtain ⟨x, y⟩ := c
      simp [addPoints, ih]
      omega

theorem addPoints_map_tag (coords : List (ℚ × ℚ)) (t : ℕ) :
    (addPoints coords t).1.map Point.tag = List.range' t coords.length := by
  induction coords generalizing t with
  | nil => simp [addPoints]
  | cons c rest ih =>
      obtain ⟨x, y⟩ := c
      simp [addPoints, List.range'_succ, ih]

theorem addPoints_z_lc (coords : List (ℚ × ℚ)) (t : ℕ) :
    ∀ p ∈ (addPoints coords t).1, p.z = 0 ∧ p.lc = 1/10 := by
  induction coords generalizing t with
  | nil => simp [addPoints]
  | cons c rest ih =>
      obtain ⟨x, y⟩ := c
      simp only [addPoints, List.mem_cons]
      rintro p (rfl | hp)
      · exact ⟨rfl, lcConst_eq⟩
      · exact ih (t + 1) p hp

theorem consecLines_length (pts : List Point) (t : ℕ) :
    (consecLines pts t).1.length = pts.length - 1 := by
  induction pts generalizing t with
  | nil => simp [consecLines]
  | cons p rest ih =>
      cases rest with
      | nil => simp [consecLines]
      | cons q rest' => simp [consecLines, ih]

theorem consecLines_snd (pts : List Point) (t : ℕ) :
    (consecLines pts t).2 = t + (pts.length - 1) := by
  induction pts generalizing t with
  | nil => simp [consecLines]
  | cons p rest ih =>
      cases rest with
      | nil => simp [consecLines]
      | cons q rest' =>
          simp [consecLines, ih]
          omega

theorem consecLines_map_tag (pts : List Point) (t : ℕ) :
    (consecLines pts t).1.map Line.tag = List.range' t (pts.length - 1) := by
  induction pts generalizing t with
  | nil => simp [consecLines]
  | cons p rest ih =>
      cases rest with
      | nil => simp [consecLines]
      | cons q rest' => simp [consecLines, List.range'_succ, ih]

theorem consecLines_getElem? (pts : List Point) (t i : ℕ) (h : i + 1 < pts.length) :
    (consecLines pts t).1[i]?.map Line.start_tag = pts[i]?.map Point.tag ∧
    (consecLines pts t).1[i]?.map Line.end_tag = pts[i+1]?.map Point.tag := by
  induction pts generalizing t i with
  | nil => simp at h
  | cons p rest ih =>
      cases rest with
      | nil => simp at h
      | cons q rest' =>
          cases i with
          | zero => simp [consecLines]
          | succ j =>
              have hj : j + 1 < (q :: rest').length := by
                simpa [Nat.succ_lt_succ_iff] using h
              simpa [consecLines] using ih (t + 1) j hj

end Bubbles

namespace Bubbles

theorem addLines_eq (p : Point) (rest : List Point) (t : ℕ) :
    addLines (p :: rest) t =
      some ((consecLines (p :: rest) t).1 ++
              [⟨((p :: rest).getLast (by simp)).tag, p.tag, t + rest.length⟩],
            t + rest.length + 1) := by
  simp [addLines, consecLines_snd]

theorem addLines_some {pts : List Point} {t : ℕ} {ls : List Line} {t' : ℕ}
    (h : addLines pts t = some (ls, t')) :
    ls.length = pts.length ∧ t' = t + pts.length ∧
    ls.map Line.tag = List.range' t pts.length ∧
    (∀ i, i + 1 < pts.length →
       ls[i]?.map Line.start_tag = pts[i]?.map Point.tag ∧
       ls[i]?.map Line.end_tag = pts[i+1]?.map Point.tag) ∧
    ls[pts.length - 1]?.map Line.start_tag = pts[pts.length - 1]?.map Point.tag ∧
    ls[pts.length - 1]?.map Line.end_tag = pts[0]?.map Point.tag := by
  match pts with
  | [] => simp [addLines] at h
  | p :: rest =>
      rw [addLines_eq] at h
      have hls : ls = (consecLines (p :: rest) t).1 ++
          [⟨((p :: rest).getLast (by simp)).tag, p.tag, t + rest.length⟩] := by
        simpa using congrArg (fun o => (Option.map Prod.fst o).getD []) h.symm
      have ht' : t' = t + rest.length + 1 := by
        simpa using congrArg (fun o => (Option.map Prod.snd o).getD 0) h.symm
      have hclen : (consecLines (p :: rest) t).1.length = rest.length := by
        simp [consecLines_length]
      refine ⟨?_, ?_, ?_, ?_, ?_, ?_⟩
      · simp [hls, hclen]
      · simp [ht']; omega
      · rw [hls, List.map_append]
        simp only [List.map_cons, List.map_nil]
        rw [consecLines_map_tag]
        simp only [List.length_cons, Nat.add_sub_cancel]
        rw [show rest.length + 1 = rest.length + 1 from rfl, List.range'_1_concat]
      · intro i hi
        have hi2 : i < rest.length := by
          simp only [List.length_cons] at hi
          omega
        have hi' : i < (consecLines (p :: rest) t).1.length := by
          rw [hclen]; exact hi2
        rw [hls, List.getElem?_append_left hi']
        exact consecLines_getElem? (p :: rest) t i hi
      · have hlen : (p :: rest).length - 1 = rest.length := by simp
        rw [hls, hlen, List.getElem?_append_right (by simp [hclen]),
            hclen, Nat.sub_self]
        have : (p :: rest)[rest.length]? = some ((p :: rest).getLast (by simp)) := by
          rw [← List.getLast?_eq_getLast (p :: rest) (by simp),
              List.getLast?_eq_getElem?]
          simp
        simp [this]
      · have hlen : (p :: rest).length - 1 = rest.length := by simp
        rw [hls, hlen, List.getElem?_append_right (by simp [hclen]),
            hclen, Nat.sub_self]
        simp

theorem addLines_ne_nil {pts : List Point} {t : ℕ} {ls : List Line} {t' : ℕ}
    (h : addLines pts t = some (ls, t')) : pts ≠ [] := by
  intro hnil
  subst hnil
  simp [addLines] at h

theorem compileRing_some {coords : List (ℚ × ℚ)} {pt lt clt : ℕ}
    {ps : List Point} {ls : List Line} {loop : CurveLoop} {pt' lt' clt' : ℕ}
    (h : compileRing coords pt lt clt = some (ps, ls, loop, pt', lt', clt')) :
    ps = (addPoints coords.dropLast pt).1 ∧
    addLines ps lt = some (ls, lt') ∧
    loop = ⟨ls.map Line.tag, clt⟩ ∧
    pt' = pt + coords.dropLast.length ∧
    clt' = clt + 1 := by
  unfold compileRing at h
  split at h
  · exact absurd h (by simp)
  · rename_i lines_local line_tag' heq
    obtain ⟨h1, h2, h3, h4, h5, h6⟩ := by
      simpa using h
    subst h1 h2 h3 h5 h6
    refine ⟨rfl, heq, rfl, ?_, rfl⟩
    rw [← h4, addPoints_snd]

end Bubbles

namespace Bubbles

theorem compileRing_spec {coords : List (ℚ × ℚ)} {pt lt clt : ℕ}
    {ps : List Point} {ls : List Line} {loop : CurveLoop} {pt' lt' clt' : ℕ}
    (h : compileRing coords pt lt clt = some (ps, ls, loop, pt', lt', clt')) :
    ps.length = coords.dropLast.length ∧ 1 ≤ ps.length ∧
    ps.map Point.tag = List.range' pt ps.length ∧
    ls.length = ps.length ∧
    ls.map Line.tag = List.range' lt ls.length ∧
    loop = ⟨ls.map Line.tag, clt⟩ ∧
    pt' = pt + ps.length ∧ lt' = lt + ls.length ∧ clt' = clt + 1 ∧
    (∀ p ∈ ps, p.z = 0 ∧ p.lc = 1/10) := by
  obtain ⟨hps, hadd, hloop, hpt, hclt⟩ := compileRing_some h
  obtain ⟨hlen, hlt, hmap, -, -, -⟩ := addLines_some hadd
  have hpslen : ps.length = coords.dropLast.length := by
    rw [hps, addPoints_length]
  have hpos : 1 ≤ ps.length :=
    List.length_pos.mpr (addLines_ne_nil hadd)
  refine ⟨hpslen, hpos, ?_, hlen, ?_, hloop, ?_, ?_, hclt, ?_⟩
  · rw [hps, addPoints_map_tag, ← hpslen, hps]
  · rw [hmap, hlen]
  · rw [hpt, hpslen]
  · rw [hlt, hlen]
  · rw [hps]; exact addPoints_z_lc _ _

theorem compileInteriors_spec {rings : List (List (ℚ × ℚ))} {pt lt clt : ℕ}
    {ps : List Point} {ls : List Line} {loops : List CurveLoop}
    {pt' lt' clt' : ℕ}
    (h : compileInteriors rings pt lt clt = some (ps, ls, loops, pt', lt', clt')) :
    ps.map Point.tag = List.range' pt ps.length ∧
    ls.map Line.tag = List.range' lt ls.length ∧
    ls.length = ps.length ∧
    loops.map CurveLoop.tag = List.range' clt rings.length ∧
    loops.length = rings.length ∧
    pt' = pt + ps.length ∧ lt' = lt + ls.length ∧ clt' = clt + rings.length ∧
    (∀ p ∈ ps, p.z = 0 ∧ p.lc = 1/10) := by
  induction rings generalizing pt lt clt ps ls loops with
  | nil =>
      obtain ⟨rfl, rfl, rfl, rfl, rfl, rfl⟩ := by
        simpa [compileInteriors] using h
      simp
  | cons ring rest ih =>
      rw [compileInteriors] at h
      split at h
      · exact absurd h (by simp)
      · rename_i ps1 ls1 loop1 pt1 lt1 clt1 hR
        split at h
        · exact absurd h (by simp)
        · rename_i ps2 ls2 loops2 pt2 lt2 clt2 hI
          obtain ⟨rfl, rfl, rfl, rfl, rfl, rfl⟩ := by simpa using h
          obtain ⟨h1len, h1pos, h1pmap, h1llen, h1lmap, h1loop,
                  h1pt, h1lt, h1clt, h1z⟩ := compileRing_spec hR
          obtain ⟨h2pmap, h2lmap, h2llen, h2clmap, h2cllen,
                  h2pt, h2lt, h2clt, h2z⟩ := ih hI
          subst h1pt h1lt h1clt
          refine ⟨?_, ?_, ?_, ?_, ?_, ?_, ?_, ?_, ?_⟩
          · rw [List.map_append, h1pmap, h2pmap, List.range'_append_1,
                List.length_append, Nat.add_comm]
          · rw [List.map_append, h1lmap, h2lmap, List.range'_append_1,
                List.length_append, Nat.add_comm]
          · simp [h1llen, h2llen]
          · rw [List.map_cons, h2clmap]
            have hcl : loop1.tag = clt := by rw [h1loop]
            rw [hcl, List.length_cons, List.range'_succ]
          · simp [h2cllen]
          · rw [h2pt, List.length_append]; omega
          · rw [h2lt, List.length_append]; omega
          · rw [h2clt, List.length_cons]; omega
          · intro p hp
            rcases List.mem_append.mp hp with h' | h'
            · exact h1z p h'
            · exact h2z p h'

end Bubbles

namespace Bubbles

/-- Master specification of one region compilation: tag ranges per kind,
counter advancement, the single plane surface listing all curve-loop tags
(exterior first), and the single physical group with tag `level + 1`. -/
theorem bubble_spec {polygon : Polygon} {level pt lt clt pst : ℕ}
    {ent : GmshEntities} {pt' lt' clt' pst' : ℕ}
    (h : bubble_to_gmsh_entities polygon level pt lt clt pst
           = some (ent, pt', lt', clt', pst')) :
    ent.points.map Point.tag = List.range' pt ent.points.length ∧
    ent.lines.map Line.tag = List.range' lt ent.lines.length ∧
    ent.lines.length = ent.points.length ∧
    ent.curve_loops.map CurveLoop.tag = List.range' clt ent.curve_loops.length ∧
    ent.curve_loops.length = polygon.interiors.length + 1 ∧
    ent.plane_surfaces = [⟨ent.curve_loops.map CurveLoop.tag, pst⟩] ∧
    ent.physical_groups = [⟨2, [pst], level + 1⟩] ∧
    pt' = pt + ent.points.length ∧ lt' = lt + ent.lines.length ∧
    clt' = clt + ent.curve_loops.length ∧ pst' = pst + 1 ∧
    (∀ p ∈ ent.points, p.z = 0 ∧ p.lc = 1/10) := by
  rw [bubble_to_gmsh_entities] at h
  split at h
  · exact absurd h (by simp)
  · rename_i ext_points ext_lines ext_loop pt1 lt1 clt1 hR
    split at h
    · exact absurd h (by simp)
    · rename_i int_points int_lines int_loops pt2 lt2 clt2 hI
      obtain ⟨rfl, rfl, rfl, rfl, rfl⟩ := by simpa using h
      obtain ⟨h1len, h1pos, h1pmap, h1llen, h1lmap, h1loop,
              h1pt, h1lt, h1clt, h1z⟩ := compileRing_spec hR
      obtain ⟨h2pmap, h2lmap, h2llen, h2clmap, h2cllen,
              h2pt, h2lt, h2clt, h2z⟩ := compileInteriors_spec hI
      subst h1pt h1lt h1clt
      refine ⟨?_, ?_, ?_, ?_, ?_, ?_, ?_, ?_, ?_, ?_, ?_, ?_⟩
      · show (ext_points ++ int_points).map Point.tag =
          List.range' pt (ext_points ++ int_points).length
        rw [List.map_append, h1pmap, h2pmap, List.range'_append_1,
            List.length_append, Nat.add_comm]
      · show (ext_lines ++ int_lines).map Line.tag =
          List.range' lt (ext_lines ++ int_lines).length
        rw [List.map_append, h1lmap, h2lmap, List.range'_append_1,
            List.length_append, Nat.add_comm]
      · show (ext_lines ++ int_lines).length = (ext_points ++ int_points).length
        simp [h1llen, h2llen]
      · show (ext_loop :: int_loops).map CurveLoop.tag =
          List.range' clt (ext_loop :: int_loops).length
        rw [List.map_cons, h2clmap]
        have hcl : ext_loop.tag = clt := by rw [h1loop]
        rw [hcl, List.length_cons, h2cllen, List.range'_succ]
      · show (ext_loop :: int_loops).length = polygon.interiors.length + 1
        simp [h2cllen]
      · rfl
      · rfl
      · show pt2 = pt + (ext_points ++ int_points).length
        rw [h2pt, List.length_append]
        omega
      · show lt2 = lt + (ext_lines ++ int_lines).length
        rw [h2lt, List.length_append]
        omega
      · show clt2 = clt + (ext_loop :: int_loops).length
        rw [h2clt, List.length_cons, h2cllen]
        omega
      · rfl
      · intro p hp
        rcases List.mem_append.mp hp with h' | h'
        · exact h1z p h'
        · exact h2z p h'

end Bubbles

namespace Bubbles

/-- Master specification of the region loop: per-kind tag contiguity from
the initial counters, one plane surface per compiled region, the number of
compiled regions, and the closed form of the per-region physical groups
(the i-th non-hole region owns surface tag `pst + i` and group tag
`level + 1`). -/
theorem compileBubbles_spec {bs : List (Polygon × ℕ)} {holes : List ℕ}
    {pt lt clt pst : ℕ} {parts : List GmshEntities}
    (h : compileBubbles bs holes pt lt clt pst = some parts) :
    ((parts.map GmshEntities.points).flatten.map Point.tag =
       List.range' pt (parts.map GmshEntities.points).flatten.length) ∧
    ((parts.map GmshEntities.lines).flatten.map Line.tag =
       List.range' lt (parts.map GmshEntities.lines).flatten.length) ∧
    ((parts.map GmshEntities.curve_loops).flatten.map CurveLoop.tag =
       List.range' clt (parts.map GmshEntities.curve_loops).flatten.length) ∧
    ((parts.map GmshEntities.plane_surfaces).flatten.map PlaneSurface.tag =
       List.range' pst parts.length) ∧
    (parts.map GmshEntities.plane_surfaces).flatten.length = parts.length ∧
    parts.length = (bs.filter fun b => b.2 ∉ holes).length ∧
    firstGroups parts =
      some (((bs.filter fun b => b.2 ∉ holes).zip
               (List.range' pst parts.length)).map
            fun bt => ⟨2, [bt.2], bt.1.2 + 1⟩) ∧
    (∀ p ∈ (parts.map GmshEntities.points).flatten, p.z = 0 ∧ p.lc = 1/10) := by
  induction bs generalizing pt lt clt pst parts with
  | nil =>
      obtain rfl : parts = [] := by simpa [compileBubbles] using h.symm
      simp [firstGroups]
  | cons b rest ih =>
      obtain ⟨polygon, level⟩ := b
      rw [compileBubbles] at h
      by_cases hl : level ∈ holes
      · rw [if_pos hl] at h
        have hfil : (((polygon, level) :: rest).filter fun b => b.2 ∉ holes) =
            rest.filter fun b => b.2 ∉ holes := by
          simp [List.filter_cons, hl]
        rw [hfil]
        exact ih h
      · rw [if_neg hl] at h
        split at h
        · exact absurd h (by simp)
        · rename_i ent pt1 lt1 clt1 pst1 hB
          split at h
          · exact absurd h (by simp)
          · rename_i parts' hRest
            obtain rfl : parts = ent :: parts' := by simpa using h.symm
            obtain ⟨hBp, hBl, hBll, hBcl, hBcll, hBs, hBg,
                    hBpt, hBlt, hBclt, hBpst, hBz⟩ := bubble_spec hB
            subst hBpt hBlt hBclt hBpst
            obtain ⟨ihp, ihl, ihcl, ihs, ihslen,_hlen, ihg, ihz⟩ := ih hRest
            have hfil : (((polygon, level) :: rest).filter fun b => b.2 ∉ holes) =
                (polygon, level) :: rest.filter (fun b => b.2 ∉ holes) := by
              simp [List.filter_cons, hl]
            refine ⟨?_, ?_, ?_, ?_, ?_, ?_, ?_, ?_⟩
            · simp only [List.map_cons, List.flatten_cons, List.map_append,
                List.length_append]
              rw [hBp, ihp, List.range'_append_1, Nat.add_comm]
            · simp only [List.map_cons, List.flatten_cons, List.map_append,
                List.length_append]
              rw [hBl, ihl, List.range'_append_1, Nat.add_comm]
            · simp only [List.map_cons, List.flatten_cons, List.map_append,
                List.length_append]
              rw [hBcl, ihcl, List.range'_append_1, Nat.add_comm]
            · simp only [List.map_cons, List.flatten_cons, List.map_append,
                List.length_cons]
              rw [hBs, ihs]
              simp only [List.map_cons, List.map_nil, PlaneSurface.tag]
              rw [List.range'_succ]
              rfl
            · simp only [List.map_cons, List.flatten_cons, List.length_append,
                List.length_cons, ihslen]
              rw [hBs]
              simp
              omega
            · rw [hfil]
              simp [_hlen]
            · rw [firstGroups, hBg, hfil]
              simp only [List.head?_cons, ihg, List.length_cons,
                List.range'_succ, List.zip_cons_cons, List.map_cons]
            · intro p hp
              simp only [List.map_cons, List.flatten_cons] at hp
              rcases List.mem_append.mp hp with h' | h'
              · exact hBz p h'
              · exact ihz p h'

end Bubbles

namespace Bubbles

theorem topology_some {bubbles : List (Polygon × ℕ)} {holes : List ℕ}
    {out : GmshEntities}
    (h : topology_to_gmsh_entities bubbles holes = some out) :
    ∃ parts pgs merged,
      compileBubbles bubbles holes 1 1 1 1 = some parts ∧
      firstGroups parts = some pgs ∧
      mergeGroups pgs = some merged ∧
      out = ⟨(parts.map GmshEntities.points).flatten,
             (parts.map GmshEntities.lines).flatten,
             (parts.map GmshEntities.curve_loops).flatten,
             (parts.map GmshEntities.plane_surfaces).flatten, merged⟩ := by
  rw [topology_to_gmsh_entities] at h
  split at h
  · exact absurd h (by simp)
  · rename_i parts hP
    split at h
    · exact absurd h (by simp)
    · rename_i pgs hG
      split at h
      · exact absurd h (by simp)
      · rename_i merged hM
        exact ⟨parts, pgs, merged, hP, hG, hM, by simpa using h.symm⟩

/-- C1: in every successful compilation run, the tags within each entity
kind (points, lines, curve loops, plane surfaces) are pairwise distinct
and equal, in creation order, the contiguous range `[1, 2, ..., N]`
(`List.range' 1 N`): no gaps, no reuse across regions. -/
theorem tag_uniqueness {bubbles : List (Polygon × ℕ)} {holes : List ℕ}
    {out : GmshEntities}
    (h : topology_to_gmsh_entities bubbles holes = some out) :
    ((out.points.map Point.tag).Nodup ∧
       out.points.map Point.tag = List.range' 1 out.points.length) ∧
    ((out.lines.map Line.tag).Nodup ∧
       out.lines.map Line.tag = List.range' 1 out.lines.length) ∧
    ((out.curve_loops.map CurveLoop.tag).Nodup ∧
       out.curve_loops.map CurveLoop.tag = List.range' 1 out.curve_loops.length) ∧
    ((out.plane_surfaces.map PlaneSurface.tag).Nodup ∧
       out.plane_surfaces.map PlaneSurface.tag =
         List.range' 1 out.plane_surfaces.length) := by
  obtain ⟨parts, pgs, merged, hP, hG, hM, rfl⟩ := topology_some h
  obtain ⟨hp, hl, hcl, hs, hslen, hplen, hg, hz⟩ := compileBubbles_spec hP
  dsimp only
  have hs' : (parts.map GmshEntities.plane_surfaces).flatten.map PlaneSurface.tag =
      List.range' 1 (parts.map GmshEntities.plane_surfaces).flatten.length := by
    rw [hs, hslen]
  refine ⟨⟨?_, hp⟩, ⟨?_, hl⟩, ⟨?_, hcl⟩, ⟨?_, hs'⟩⟩
  · rw [hp]; exact List.nodup_range' _ _
  · rw [hl]; exact List.nodup_range' _ _
  · rw [hcl]; exact List.nodup_range' _ _
  · rw [hs']; exact List.nodup_range' _ _

theorem compileBubbles_filter (bs : List (Polygon × ℕ)) (holes : List ℕ)
    (pt lt clt pst : ℕ) :
    compileBubbles bs holes pt lt clt pst =
      compileBubbles (bs.filter fun b => b.2 ∉ holes) holes pt lt clt pst := by
  induction bs generalizing pt lt clt pst with
  | nil => rfl
  | cons b rest ih =>
      obtain ⟨polygon, level⟩ := b
      by_cases hl : level ∈ holes
      · rw [List.filter_cons_of_neg (by simpa using hl), compileBubbles,
            if_pos hl]
        exact ih pt lt clt pst
      · rw [List.filter_cons_of_pos (by simpa using hl)]
        cases hB : bubble_to_gmsh_entities polygon level pt lt clt pst with
        | none =>
            rw [compileBubbles, if_neg hl, compileBubbles, if_neg hl, hB]
        | some v =>
            obtain ⟨ent, pt', lt', clt', pst'⟩ := v
            rw [compileBubbles, if_neg hl, compileBubbles, if_neg hl, hB]
            dsimp only
            rw [ih pt' lt' clt' pst']

/-- C4: regions whose level is a hole level contribute nothing to the
output: compiling the flattened list is the same as compiling the list
with every hole-level pair removed, so no point, line, curve loop, plane
surface or physical group originates from a hole-level pair. -/
theorem hole_filtering (bubbles : List (Polygon × ℕ)) (holes : List ℕ) :
    topology_to_gmsh_entities bubbles holes =
      topology_to_gmsh_entities (bubbles.filter fun b => b.2 ∉ holes) holes := by
  rw [topology_to_gmsh_entities, topology_to_gmsh_entities,
      compileBubbles_filter]

theorem compileBubbles_all_holes {bs : List (Polygon × ℕ)} {holes : List ℕ}
    (h : ∀ b ∈ bs, b.2 ∈ holes) (pt lt clt pst : ℕ) :
    compileBubbles bs holes pt lt clt pst = some [] := by
  induction bs with
  | nil => rfl
  | cons b rest ih =>
      obtain ⟨polygon, level⟩ := b
      rw [compileBubbles, if_pos (h (polygon, level) (List.mem_cons_self _ _))]
      exact ih fun b hb => h b (List.mem_cons_of_mem _ hb)

/-- C9: when every flattened pair has a hole level (in particular when the
flattened list is empty), the compilation returns successfully an entity
set whose five collections are all empty. -/
theorem empty_topology {bubbles : List (Polygon × ℕ)} {holes : List ℕ}
    (h : ∀ b ∈ bubbles, b.2 ∈ holes) :
    topology_to_gmsh_entities bubbles holes =
      some ⟨[], [], [], [], []⟩ := by
  rw [topology_to_gmsh_entities, compileBubbles_all_holes h]
  rfl

/-- C10: every point produced by a region compilation has `z = 0.0` and
characteristic length `lc = 0.1` (`1/10` exactly); the characteristic
length is a fixed constant of the source, not a parameter of
`bubble_to_gmsh_entities` or `topology_to_gmsh_entities` (neither embedded
signature has an `lc` argument). -/
theorem point_constants {polygon : Polygon} {level pt lt clt pst : ℕ}
    {ent : GmshEntities} {pt' lt' clt' pst' : ℕ}
    (h : bubble_to_gmsh_entities polygon level pt lt clt pst
           = some (ent, pt', lt', clt', pst')) :
    ∀ p ∈ ent.points, p.z = 0 ∧ p.lc = 1/10 :=
  (bubble_spec h).2.2.2.2.2.2.2.2.2.2.2

end Bubbles

namespace Bubbles

/-! ### Lemmas about the physical-group merge -/


theorem sortGroupsByTag_perm (gs : List PhysicalGroup) :
    (sortGroupsByTag gs).Perm gs :=
  List.perm_insertionSort _ gs

theorem sortGroupsByTag_sorted (gs : List PhysicalGroup) :
    (sortGroupsByTag gs).Pairwise (fun a b => a.tag ≤ b.tag) :=
  List.sorted_insertionSort _ gs

theorem groupByTag_flatten (l : List PhysicalGroup) :
    ((groupByTag l).map Prod.snd).flatten = l := by
  induction l with
  | nil => rfl
  | cons g rest ih =>
      rw [groupByTag]
      cases hG : groupByTag rest with
      | nil =>
          rw [hG] at ih
          have hrest : rest = [] := by simpa using ih.symm
          subst hrest
          rfl
      | cons tg more =>
          obtain ⟨t, gs⟩ := tg
          rw [hG] at ih
          dsimp only
          by_cases he : g.tag = t
          · rw [if_pos he]
            simp only [List.map_cons, List.flatten_cons] at ih ⊢
            rw [← ih, List.cons_append]
          · rw [if_neg he]
            simp only [List.map_cons, List.flatten_cons] at ih ⊢
            simp [ih]

theorem groupByTag_mem_tag {l : List PhysicalGroup} :
    ∀ tg ∈ groupByTag l, ∀ g ∈ tg.2, g.tag = tg.1 := by
  induction l with
  | nil => simp [groupByTag]
  | cons g rest ih =>
      rw [groupByTag]
      cases hG : groupByTag rest with
      | nil =>
          intro tg htg g' hg'
          obtain rfl : tg = (g.tag, [g]) := by simpa using htg
          obtain rfl : g' = g := by simpa using hg'
          rfl
      | cons tg0 more =>
          obtain ⟨t, gs⟩ := tg0
          rw [hG] at ih
          dsimp only
          by_cases he : g.tag = t
          · rw [if_pos he]
            intro tg htg g' hg'
            rcases List.mem_cons.mp htg with rfl | hmore
            · rcases List.mem_cons.mp hg' with rfl | hgs
              · exact he
              · exact ih (t, gs) (List.mem_cons_self _ _) g' hgs
            · exact ih tg (List.mem_cons_of_mem _ hmore) g' hg'
          · rw [if_neg he]
            intro tg htg g' hg'
            rcases List.mem_cons.mp htg with rfl | hrest'
            · obtain rfl : g' = g := by simpa using hg'
              rfl
            · exact ih tg hrest' g' hg'

theorem groupByTag_key_mem {l : List PhysicalGroup} :
    ∀ tg ∈ groupByTag l, ∃ g ∈ l, g.tag = tg.1 := by
  induction l with
  | nil => simp [groupByTag]
  | cons g rest ih =>
      rw [groupByTag]
      cases hG : groupByTag rest with
      | nil =>
          intro tg htg
          obtain rfl : tg = (g.tag, [g]) := by simpa using htg
          exact ⟨g, List.mem_cons_self _ _, rfl⟩
      | cons tg0 more =>
          obtain ⟨t, gs⟩ := tg0
          rw [hG] at ih
          dsimp only
          by_cases he : g.tag = t
          · rw [if_pos he]
            intro tg htg
            rcases List.mem_cons.mp htg with rfl | hmore
            · exact ⟨g, List.mem_cons_self _ _, he⟩
            · obtain ⟨g', hg', htag⟩ := ih tg (List.mem_cons_of_mem _ hmore)
              exact ⟨g', List.mem_cons_of_mem _ hg', htag⟩
          · rw [if_neg he]
            intro tg htg
            rcases List.mem_cons.mp htg with rfl | hrest'
            · exact ⟨g, List.mem_cons_self _ _, rfl⟩
            · obtain ⟨g', hg', htag⟩ := ih tg hrest'
              exact ⟨g', List.mem_cons_of_mem _ hg', htag⟩

theorem groupByTag_keys_lt {l : List PhysicalGroup}
    (hs : l.Pairwise (fun a b => a.tag ≤ b.tag)) :
    ((groupByTag l).map Prod.fst).Pairwise (· < ·) := by
  induction l with
  | nil => simp [groupByTag]
  | cons g rest ih =>
      rw [groupByTag]
      obtain ⟨hg, hs'⟩ := List.pairwise_cons.mp hs
      cases hG : groupByTag rest with
      | nil => simp
      | cons tg0 more =>
          obtain ⟨t, gs⟩ := tg0
          have ihkeys : (((t, gs) :: more).map Prod.fst).Pairwise (· < ·) := by
            rw [← hG]; exact ih hs'
          have hkey_le : ∀ tg ∈ groupByTag rest, g.tag ≤ tg.1 := by
            intro tg htg
            obtain ⟨g', hg', htag⟩ := groupByTag_key_mem tg htg
            exact htag ▸ hg g' hg'
          dsimp only
          by_cases he : g.tag = t
          · rw [if_pos he]
            simpa using ihkeys
          · rw [if_neg he]
            simp only [List.map_cons, List.pairwise_cons] at ihkeys ⊢
            obtain ⟨ht_more, hmore⟩ := ihkeys
            have hgt : g.tag < t := by
              have := hkey_le (t, gs) (hG ▸ List.mem_cons_self _ _)
              omega
            refine ⟨?_, ht_more, hmore⟩
            intro k hk
            rcases List.mem_cons.mp hk with rfl | hk'
            · exact hgt
            · exact lt_trans hgt (ht_more k hk')

theorem mapM_eq_map {α β : Type} (f : α → Option β) (g : α → β) (l : List α)
    (h : ∀ a ∈ l, f a = some (g a)) : l.mapM f = some (l.map g) := by
  induction l with
  | nil => rfl
  | cons a rest ih =>
      rw [List.mapM_cons, h a (List.mem_cons_self _ _),
          ih fun b hb => h b (List.mem_cons_of_mem _ hb)]
      rfl

theorem mergeGroups_eq {gs : List PhysicalGroup}
    (h : ∀ g ∈ gs, g.entity_tags ≠ []) :
    mergeGroups gs = some ((groupByTag (sortGroupsByTag gs)).map
      fun tg => ⟨2, tg.2.map fun g => g.entity_tags.headI, tg.1⟩) := by
  apply mapM_eq_map
  intro tg htg
  have hmem : ∀ g ∈ tg.2, g ∈ gs := by
    intro g hg
    have hflat : g ∈ ((groupByTag (sortGroupsByTag gs)).map Prod.snd).flatten :=
      List.mem_flatten.mpr ⟨tg.2, List.mem_map_of_mem Prod.snd htg, hg⟩
    rw [groupByTag_flatten] at hflat
    exact (sortGroupsByTag_perm gs).subset hflat
  have hinner : (tg.2.mapM fun g => g.entity_tags.head?) =
      some (tg.2.map fun g => g.entity_tags.headI) := by
    apply mapM_eq_map
    intro g hg
    cases hq : g.entity_tags with
    | nil => exact absurd hq (h g (hmem g hg))
    | cons e es => simp [hq]
  show (match tg.2.mapM fun g => g.entity_tags.head? with
        | none => none
        | some entity_tags => some (⟨2, entity_tags, tg.1⟩ : PhysicalGroup)) = _
  rw [hinner]

end Bubbles

namespace Bubbles


theorem groupByTag_flatten_key (s : List PhysicalGroup) (f : PhysicalGroup → ℕ) :
    ((groupByTag s).map (fun tg => tg.2.map fun g => (tg.1, f g))).flatten
      = s.map fun g => (g.tag, f g) := by
  induction s with
  | nil => rfl
  | cons g rest ih =>
      rw [groupByTag]
      cases hG : groupByTag rest with
      | nil =>
          rw [hG] at ih
          have hrest : rest = [] := by
            have : ([] : List (ℕ × ℕ)) = rest.map fun g => (g.tag, f g) := by
              simpa using ih
            cases rest with
            | nil => rfl
            | cons r rs => simp at this
          subst hrest
          rfl
      | cons tg0 more =>
          obtain ⟨t, gs⟩ := tg0
          rw [hG] at ih
          dsimp only
          by_cases he : g.tag = t
          · rw [if_pos he]
            simp only [List.map_cons, List.flatten_cons] at ih ⊢
            rw [← ih, he, List.cons_append]
          · rw [if_neg he]
            simp only [List.map_cons, List.flatten_cons] at ih ⊢
            simp [ih]

/-- The merged physical groups: strictly increasing tags (hence one record
per tag), dimension 2 everywhere, and the flat (tag, entity tag)
membership relation is a permutation of the input records' (tag, first
entity tag) pairs. -/
theorem mergeGroups_merged_spec {gs merged : List PhysicalGroup}
    (hne : ∀ g ∈ gs, g.entity_tags ≠ [])
    (h : mergeGroups gs = some merged) :
    (merged.map PhysicalGroup.tag).Pairwise (· < ·) ∧
    (∀ g ∈ merged, g.dim = 2) ∧
    (explodeGroups merged).Perm (gs.map fun g => (g.tag, g.entity_tags.headI)) := by
  have hmerged : merged = (groupByTag (sortGroupsByTag gs)).map
      fun tg => ⟨2, tg.2.map fun g => g.entity_tags.headI, tg.1⟩ := by
    have := mergeGroups_eq hne
    rw [h] at this
    exact Option.some.inj this
  refine ⟨?_, ?_, ?_⟩
  · rw [hmerged, List.map_map]
    have : (PhysicalGroup.tag ∘ fun tg : ℕ × List PhysicalGroup =>
        (⟨2, tg.2.map fun g => g.entity_tags.headI, tg.1⟩ : PhysicalGroup))
          = Prod.fst := by
      funext tg
      rfl
    rw [this]
    exact groupByTag_keys_lt (sortGroupsByTag_sorted gs)
  · intro g hg
    rw [hmerged] at hg
    obtain ⟨tg, -, rfl⟩ := List.mem_map.mp hg
    rfl
  · have hkey : ∀ tg ∈ groupByTag (sortGroupsByTag gs), ∀ g ∈ tg.2, g.tag = tg.1 :=
      groupByTag_mem_tag
    have hexp : explodeGroups merged =
        ((groupByTag (sortGroupsByTag gs)).map
          (fun tg => tg.2.map fun g => (tg.1, g.entity_tags.headI))).flatten := by
      rw [hmerged, explodeGroups, List.map_map]
      refine congrArg List.flatten (List.map_congr_left ?_)
      intro tg htg
      simp [Function.comp, List.map_map]
    rw [hexp, groupByTag_flatten_key]
    exact (sortGroupsByTag_perm gs).map _

end Bubbles

namespace Bubbles

/-- C3: in the merged output, physical-group tags are strictly increasing
(so no two records share a tag), every record has dimension 2, and the
flat (group tag, entity tag) relation consists of exactly one pair
`(level + 1, surface tag)` per non-hole region, where the i-th non-hole
region (0-based) owns plane-surface tag `i + 1`: every region's surface
tag lands in the single record whose tag is its `level + 1`. -/
theorem physical_group_merging {bubbles : List (Polygon × ℕ)} {holes : List ℕ}
    {out : GmshEntities}
    (h : topology_to_gmsh_entities bubbles holes = some out) :
    (out.physical_groups.map PhysicalGroup.tag).Pairwise (· < ·) ∧
    (∀ g ∈ out.physical_groups, g.dim = 2) ∧
    (explodeGroups out.physical_groups).Perm
      (((bubbles.filter fun b => b.2 ∉ holes).zip
          (List.range' 1 (bubbles.filter fun b => b.2 ∉ holes).length)).map
        fun bt => (bt.1.2 + 1, bt.2)) := by
  obtain ⟨parts, pgs, merged, hP, hG, hM, rfl⟩ := topology_some h
  obtain ⟨hp, hl, hcl, hs, hslen, hplen, hg, hz⟩ := compileBubbles_spec hP
  have hpgs : pgs = ((bubbles.filter fun b => b.2 ∉ holes).zip
      (List.range' 1 parts.length)).map fun bt => ⟨2, [bt.2], bt.1.2 + 1⟩ :=
    Option.some.inj (hG.symm.trans hg)
  have hne : ∀ g ∈ pgs, g.entity_tags ≠ [] := by
    rw [hpgs]
    intro g hg'
    obtain ⟨bt, -, rfl⟩ := List.mem_map.mp hg'
    simp
  obtain ⟨h1, h2, h3⟩ := mergeGroups_merged_spec hne hM
  dsimp only
  refine ⟨h1, h2, ?_⟩
  have heq : (pgs.map fun g => (g.tag, g.entity_tags.headI)) =
      ((bubbles.filter fun b => b.2 ∉ holes).zip
        (List.range' 1 (bubbles.filter fun b => b.2 ∉ holes).length)).map
          fun bt => (bt.1.2 + 1, bt.2) := by
    rw [hpgs, List.map_map, hplen]
    exact List.map_congr_left fun bt _ => rfl
  exact heq ▸ h3

end Bubbles

namespace Bubbles

/-- C2: compiling a single ring (a polygon with no interiors) whose
coordinate list, after dropping the closing duplicate, has `N ≥ 3`
distinct coordinates yields exactly `N` points, exactly `N` lines
(consecutive points in input order, then a closing line from the last
point back to the first), and exactly one curve loop listing precisely
those line tags in order; the lines form a single closed cycle: line i's
end point tag equals line `(i+1) mod N`'s start point tag. -/
theorem ring_compilation {coords : List (ℚ × ℚ)} {N level pt lt clt pst : ℕ}
    {ent : GmshEntities} {pt' lt' clt' pst' : ℕ}
    (hN : coords.dropLast.length = N) (h3 : 3 ≤ N)
    (_hclosed : coords.head? = coords.getLast?)
    (_hdistinct : coords.dropLast.Nodup)
    (h : bubble_to_gmsh_entities ⟨coords, []⟩ level pt lt clt pst
           = some (ent, pt', lt', clt', pst')) :
    ent.points.length = N ∧
    ent.lines.length = N ∧
    ent.curve_loops = [⟨ent.lines.map Line.tag, clt⟩] ∧
    (∀ i, i + 1 < N →
       ent.lines[i]?.map Line.start_tag = ent.points[i]?.map Point.tag ∧
       ent.lines[i]?.map Line.end_tag = ent.points[i+1]?.map Point.tag) ∧
    ent.lines[N-1]?.map Line.start_tag = ent.points[N-1]?.map Point.tag ∧
    ent.lines[N-1]?.map Line.end_tag = ent.points[0]?.map Point.tag ∧
    (∀ i, i < N →
       ent.lines[i]?.map Line.end_tag =
         ent.lines[(i+1) % N]?.map Line.start_tag) := by
  rw [bubble_to_gmsh_entities] at h
  split at h
  · exact absurd h (by simp)
  · rename_i ext_points ext_lines ext_loop pt1 lt1 clt1 hR
    split at h
    · exact absurd h (by simp)
    · rename_i int_points int_lines int_loops pt2 lt2 clt2 hI
      obtain ⟨rfl, rfl, rfl, rfl, rfl, rfl⟩ :
          ([] : List Point) = int_points ∧ ([] : List Line) = int_lines ∧
          ([] : List CurveLoop) = int_loops ∧ pt1 = pt2 ∧ lt1 = lt2 ∧
          clt1 = clt2 := by
        simpa [compileInteriors] using hI
      obtain ⟨rfl, rfl, rfl, rfl, rfl⟩ := by simpa using h
      obtain ⟨hps, hadd, hloop, hpt1, hclt1⟩ := compileRing_some hR
      have hNp : ext_points.length = N := by
        rw [hps, addPoints_length, hN]
      obtain ⟨hlen, hlt, hmap, hcons, hlast_start, hlast_end⟩ :=
        addLines_some hadd
      rw [hNp] at hlen hcons hlast_start hlast_end
      dsimp only
      have hconsec : ∀ i, i + 1 < N →
          ext_lines[i]?.map Line.start_tag = ext_points[i]?.map Point.tag ∧
          ext_lines[i]?.map Line.end_tag = ext_points[i+1]?.map Point.tag :=
        hcons
      refine ⟨hNp, hlen, by rw [hloop], hconsec, hlast_start, hlast_end, ?_⟩
      intro i hi
      by_cases hi1 : i + 1 < N
      · have hmod : (i + 1) % N = i + 1 := Nat.mod_eq_of_lt hi1
        rw [hmod, (hconsec i hi1).2]
        by_cases hi2 : i + 2 < N
        · exact ((hconsec (i + 1) hi2).1).symm
        · have : i + 1 = N - 1 := by omega
          rw [this, hlast_start]
      · have hiN : i = N - 1 := by omega
        subst hiN
        have hmod : (N - 1 + 1) % N = 0 := by
          have hone : N - 1 + 1 = N := by omega
          simp [hone]
        rw [hmod, hlast_end]
        have h01 : 0 + 1 < N := by omega
        rw [(hconsec 0 h01).1]

end Bubbles

namespace Bubbles


end Bubbles

namespace Bubbles

/-- C7: the single square ring `[(0,0),(1,0),(1,1),(0,1),(0,0)]` at level 0
compiles to exactly 4 points with tags 1–4, 4 lines with tags 1–4 whose
last line connects point 4 back to point 1, 1 curve loop with tag 1 and
line tags `[1,2,3,4]`, 1 plane surface with tag 1 and loop tags `[1]`, and
1 physical group with tag 1 and entity tags `[1]` (`lcConst = 0.1`). -/
theorem square_round_trip :
    topology_to_gmsh_entities [(square, 0)] [] = some squareEntities := by
  decide

/-- C6: compiling `[(P1, 1), (P2, 1)]` (two disjoint unit squares, both at
level 1) yields exactly one physical group, with tag `2 = 1 + 1` and
entity tags `[1, 2]` (the two plane-surface tags); compiling the two
regions in the reverse input order yields again exactly one physical group
with tag 2 and the same entity-tag list `[1, 2]` (in particular the same
set). -/
theorem group_merge_idempotence :
    (topology_to_gmsh_entities [(square, 1), (square2, 1)] []).map
        GmshEntities.physical_groups = some [⟨2, [1, 2], 2⟩] ∧
    (topology_to_gmsh_entities [(square2, 1), (square, 1)] []).map
        GmshEntities.physical_groups = some [⟨2, [1, 2], 2⟩] := by
  decide

/-- C8: every successful region compilation yields exactly one plane
surface whose curve-loop-tag sequence is the exterior ring's loop tag
first, followed by the interior rings' loop tags in compilation order
(the consecutive tags `clt, clt+1, …`); and in particular the square with
the centered square hole at level 0 compiles to 8 points, 8 lines, 2 curve
loops with tags 1 and 2, 1 plane surface with loop tags `[1, 2]`, and 1
physical group with entity tags `[1]`. -/
theorem surface_loop_order :
    (∀ (polygon : Polygon) (level pt lt clt pst : ℕ) (ent : GmshEntities)
        (pt' lt' clt' pst' : ℕ),
      bubble_to_gmsh_entities polygon level pt lt clt pst
          = some (ent, pt', lt', clt', pst') →
      ent.plane_surfaces = [⟨ent.curve_loops.map CurveLoop.tag, pst⟩] ∧
      ent.curve_loops.map CurveLoop.tag =
        List.range' clt (polygon.interiors.length + 1) ∧
      ent.curve_loops.length = polygon.interiors.length + 1 ∧
      ent.physical_groups = [⟨2, [pst], level + 1⟩]) ∧
    topology_to_gmsh_entities [(squareWithHole, 0)] []
        = some squareWithHoleEntities := by
  constructor
  · intro polygon level pt lt clt pst ent pt' lt' clt' pst' h
    obtain ⟨-, -, -, hBcl, hBcll, hBs, hBg, -, -, -, -, -⟩ := bubble_spec h
    rw [hBcll] at hBcl
    exact ⟨hBs, hBcl, hBcll, hBg⟩
  · decide

/-- C8 witness: the general conjunct instantiated on the square-with-hole
region with all counters 1. -/
theorem surface_loop_order_witness :
    bubble_to_gmsh_entities squareWithHole 0 1 1 1 1
        = some (squareWithHoleEntities, 9, 9, 3, 2) ∧
    (squareWithHoleEntities.plane_surfaces =
        [⟨squareWithHoleEntities.curve_loops.map CurveLoop.tag, 1⟩] ∧
     squareWithHoleEntities.curve_loops.map CurveLoop.tag =
        List.range' 1 (squareWithHole.interiors.length + 1) ∧
     squareWithHoleEntities.curve_loops.length =
        squareWithHole.interiors.length + 1 ∧
     squareWithHoleEntities.physical_groups = [⟨2, [1], 1⟩]) :=
  ⟨by decide,
   surface_loop_order.1 squareWithHole 0 1 1 1 1
     squareWithHoleEntities 9 9 3 2 (by decide)⟩

/-- C5 counterexample: the claimed *DegenerateRing* rejection does not
exist in the code: compiling the two-distinct-coordinate ring
`[(0,0),(1,1),(0,0)]` does not fail — an entity set is produced. -/
theorem degenerate_ring_counterexample :
    topology_to_gmsh_entities [(degeneratePolygon, 0)] [] ≠ none := by
  decide

/-- C5 amended: the code performs no degeneracy check. A ring with only 2
distinct coordinates compiles successfully into 2 points, 2 lines (the
consecutive line 1→2 and the closing line 2→1, retracing the same segment),
1 curve loop, 1 plane surface and 1 physical group. -/
theorem degenerate_ring_not_rejected :
    topology_to_gmsh_entities [(degeneratePolygon, 0)] [] = some
      ⟨[⟨0, 0, 0, lcConst, 1⟩, ⟨1, 1, 0, lcConst, 2⟩],
       [⟨1, 2, 1⟩, ⟨2, 1, 2⟩],
       [⟨[1, 2], 1⟩], [⟨[1], 1⟩], [⟨2, [1], 1⟩]⟩ := by
  decide

/-- C1 witness: the tag-contiguity theorem applied to the single-square
run. -/
theorem tag_uniqueness_witness :
    topology_to_gmsh_entities [(square, 0)] [] = some squareEntities ∧
    (((squareEntities.points.map Point.tag).Nodup ∧
       squareEntities.points.map Point.tag =
         List.range' 1 squareEntities.points.length) ∧
     ((squareEntities.lines.map Line.tag).Nodup ∧
       squareEntities.lines.map Line.tag =
         List.range' 1 squareEntities.lines.length) ∧
     ((squareEntities.curve_loops.map CurveLoop.tag).Nodup ∧
       squareEntities.curve_loops.map CurveLoop.tag =
         List.range' 1 squareEntities.curve_loops.length) ∧
     ((squareEntities.plane_surfaces.map PlaneSurface.tag).Nodup ∧
       squareEntities.plane_surfaces.map PlaneSurface.tag =
         List.range' 1 squareEntities.plane_surfaces.length)) :=
  ⟨by decide, @tag_uniqueness [(square, 0)] [] squareEntities (by decide)⟩

/-- C2 witness: the ring-compilation theorem applied to the unit-square
ring (N = 4) with all counters 1. -/
theorem ring_compilation_witness :
    (squareRing.dropLast.length = 4 ∧ 3 ≤ 4 ∧
     squareRing.head? = squareRing.getLast? ∧
     squareRing.dropLast.Nodup ∧
     bubble_to_gmsh_entities ⟨squareRing, []⟩ 0 1 1 1 1 =
       some (squareEntities, 5, 5, 2, 2)) ∧
    (squareEntities.points.length = 4 ∧
     squareEntities.lines.length = 4 ∧
     squareEntities.curve_loops = [⟨squareEntities.lines.map Line.tag, 1⟩] ∧
     (∀ i, i + 1 < 4 →
        squareEntities.lines[i]?.map Line.start_tag =
          squareEntities.points[i]?.map Point.tag ∧
        squareEntities.lines[i]?.map Line.end_tag =
          squareEntities.points[i+1]?.map Point.tag) ∧
     squareEntities.lines[4-1]?.map Line.start_tag =
       squareEntities.points[4-1]?.map Point.tag ∧
     squareEntities.lines[4-1]?.map Line.end_tag =
       squareEntities.points[0]?.map Point.tag ∧
     (∀ i, i < 4 →
        squareEntities.lines[i]?.map Line.end_tag =
          squareEntities.lines[(i+1) % 4]?.map Line.start_tag)) :=
  ⟨⟨by decide, by decide, by decide, by decide, by decide⟩,
   @ring_compilation squareRing 4 0 1 1 1 1 squareEntities 5 5 2 2
     (by decide) (by decide) (by decide) (by decide) (by decide)⟩

/-- C3 witness: the merge theorem applied to the two squares at level 1. -/
theorem physical_group_merging_witness :
    topology_to_gmsh_entities [(square, 1), (square2, 1)] [] =
        some twoSquaresEntities ∧
    ((twoSquaresEntities.physical_groups.map PhysicalGroup.tag).Pairwise
        (· < ·) ∧
     (∀ g ∈ twoSquaresEntities.physical_groups, g.dim = 2) ∧
     (explodeGroups twoSquaresEntities.physical_groups).Perm
       ((([(square, 1), (square2, 1)].filter
            fun b => b.2 ∉ ([] : List ℕ)).zip
           (List.range' 1 ([(square, 1), (square2, 1)].filter
            fun b => b.2 ∉ ([] : List ℕ)).length)).map
         fun bt => (bt.1.2 + 1, bt.2))) :=
  ⟨by decide, @physical_group_merging [(square, 1), (square2, 1)] []
     twoSquaresEntities (by decide)⟩

/-- C9 witness: the empty-output theorem applied to a run whose only
region is at a hole level. -/
theorem empty_topology_witness :
    (∀ b ∈ [(square, 0)], b.2 ∈ [0]) ∧
    topology_to_gmsh_entities [(square, 0)] [0] = some ⟨[], [], [], [], []⟩ :=
  ⟨by decide, @empty_topology [(square, 0)] [0] (by decide)⟩

/-- C10 witness: the point-constants theorem applied to the unit square
region with all counters 1. -/
theorem point_constants_witness :
    bubble_to_gmsh_entities square 0 1 1 1 1 =
        some (squareEntities, 5, 5, 2, 2) ∧
    (∀ p ∈ squareEntities.points, p.z = 0 ∧ p.lc = 1/10) :=
  ⟨by decide, @point_constants square 0 1 1 1 1 squareEntities 5 5 2 2 (by decide)⟩

end Bubbles
